import Mathlib

/-!
Verification of the small utility functions of the `learning` repository
(`src/python/basics/lists.py`, `ds-tuples-sets-dict.py`, `tuples.py`).

Sequences are embedded as Lean `List`s. Python functions that print their
result and return `None` (`nested_sum`, `cumsum`) are embedded as pure
functions returning the printed value, which is their only observable
output. In-place mutation (`chop`) is embedded by explicit state passing:
the embedded function returns the final state of the caller-visible list
together with a success flag (`false` = an `IndexError` was raised).
-/

namespace Learning

/-- Embedding of `nested_sum` (lists.py, lines 23-27):
`r = []`, then `for i in t: r.extend(i)`; the accumulated `r` is the
printed output. -/
def nested_sum (t : List (List Int)) : List Int :=
  t.foldl (fun r i => r ++ i) []

/-- Embedding of the loop body of `cumsum` (lists.py, lines 30-35):
for index `i` of `r`, if `i > 0` then `r[i] += r[i-1]`.
All accesses are in range, so `getD` with default `0` is exact. -/
def cumsumStep (r : List Int) (i : Nat) : List Int :=
  if 0 < i then r.set i (r.getD i 0 + r.getD (i - 1) 0) else r

/-- Embedding of `cumsum` (lists.py, lines 30-35): `r = t[:]` (a copy of
`t`), then the index loop over `range(len(r))`; the final `r` is the
printed output. -/
def cumsum (t : List Int) : List Int :=
  (List.range t.length).foldl cumsumStep t

/-- State-passing embedding of a call to `cumsum`: the state is the pair
(caller's list `t`, local list `r`).  Line 31 `r = t[:]` initialises `r`
with a copy of the value of `t`; the loop assigns only into `r`, never
into `t`. The call returns (final value of `t`, printed value of `r`). -/
def cumsumCall (t : List Int) : List Int × List Int :=
  let s0 : List Int × List Int := (t, t)
  (List.range t.length).foldl (fun s i => (s.1, cumsumStep s.2 i)) s0

/-- Embedding of `middle` (lists.py, lines 38-39): the slice `t[1:-1]`,
i.e. the elements at indices `1 .. len(t)-2`. -/
def middle (t : List Int) : List Int :=
  (t.drop 1).dropLast

/-- Embedding of `t.pop(0)`: removes and returns the first element;
`none` models the `IndexError` raised on an empty list. -/
def pop0 : List Int → Option (Int × List Int)
  | [] => none
  | x :: xs => some (x, xs)

/-- Embedding of `t.pop(-1)`: removes and returns the last element;
`none` models the `IndexError` raised on an empty list. -/
def popNeg1 (t : List Int) : Option (Int × List Int) :=
  match t.getLast? with
  | none => none
  | some x => some (x, t.dropLast)

/-- Embedding of `chop` (lists.py, lines 42-45): `t.pop(0)` then
`t.pop(-1)`, then `return` (no value). The result is the pair
(`true` iff no `IndexError` was raised, final state of the caller's
list); when the first pop raises, the list is still intact, when the
second pop raises, the first pop has already happened. -/
def chop (t : List Int) : Bool × List Int :=
  match pop0 t with
  | none => (false, t)
  | some (_, t1) =>
    match popNeg1 t1 with
    | none => (false, t1)
    | some (_, t2) => (true, t2)

/-- Embedding of `str.replace(" ", "")` on a string: drops every space
character. -/
def removeSpaces (s : List Char) : List Char :=
  s.filter (fun c => c ≠ ' ')

/-- Embedding of `str.lower()`: lower-cases every character. -/
def lowerStr (s : List Char) : List Char :=
  s.map Char.toLower

/-- Insertion of a character into a list sorted by code point. -/
def insertChar (c : Char) : List Char → List Char
  | [] => [c]
  | x :: xs => if c.val ≤ x.val then c :: x :: xs else x :: insertChar c xs

/-- Embedding of Python `sorted` on a string: the characters in
nondecreasing code-point order.  Insertion sort is used; since the order
on code points is total, the result coincides with any sort. -/
def pySorted (s : List Char) : List Char :=
  s.foldr insertChar []

/-- Embedding of `is_anagram` (lists.py, lines 66-78): both strings are
normalised by `replace(" ", "")` then `lower()`, and the sorted
character sequences are compared. -/
def is_anagram (s1 s2 : List Char) : Bool :=
  let n1 := lowerStr (removeSpaces s1)
  let n2 := lowerStr (removeSpaces s2)
  decide (pySorted n1 = pySorted n2)

/-- Embedding of `d.get(c, 0)` on a Python dict represented as an
association list in insertion order: value of the first entry with the
given key, else the default. -/
def dictGet (d : List (Char × Nat)) (k : Char) (v0 : Nat) : Nat :=
  match d with
  | [] => v0
  | p :: rest => if p.1 = k then p.2 else dictGet rest k v0

/-- Embedding of `d[c] = v` on a Python dict represented as an
association list: updates the entry in place if the key is present,
otherwise appends a new entry at the end. -/
def dictSet (d : List (Char × Nat)) (k : Char) (v : Nat) : List (Char × Nat) :=
  match d with
  | [] => [(k, v)]
  | p :: rest => if p.1 = k then (k, v) :: rest else p :: dictSet rest k v

/-- Embedding of `histogram` (ds-tuples-sets-dict.py, lines 84-88):
`d = dict()`, then `for c in s: d[c] = d.get(c, 0) + 1`, returning `d`. -/
def histogram (s : List Char) : List (Char × Nat) :=
  s.foldl (fun d c => dictSet d c (dictGet d c 0 + 1)) []

/-- Embedding of the loop of `has_match` (tuples.py, lines 83-87):
iterate over `zip(t1, t2)`, returning `True` at the first positionally
equal pair, `False` if the loop finishes. -/
def has_matchLoop : List (Int × Int) → Bool
  | [] => false
  | p :: rest => if p.1 = p.2 then true else has_matchLoop rest

/-- Embedding of `has_match` (tuples.py, lines 83-87). -/
def has_match (t1 t2 : List Int) : Bool :=
  has_matchLoop (t1.zip t2)

/-- Embedding of the loop of `is_sorted` (lists.py, lines 51-61) over the
index list `range(1, len(t))`: `r` becomes `False` and the loop breaks at
the first descent `t[i-1] > t[i]`. All accesses are in range, so `getD`
with default `0` is exact. -/
def is_sortedLoop (t : List Int) : List Nat → Bool
  | [] => true
  | i :: rest =>
    if t.getD (i - 1) 0 > t.getD i 0 then false else is_sortedLoop t rest

/-- Embedding of `is_sorted` (lists.py, lines 51-61);
`range(1, len(t))` is `(List.range t.length).drop 1`. -/
def is_sorted (t : List Int) : Bool :=
  is_sortedLoop t ((List.range t.length).drop 1)

/-- Embedding of `has_duplicates` (lists.py, lines 81-88): `dict` of the
elements seen so far (only key membership matters); `True` is returned at
the first repeated element. -/
def has_duplicatesLoop (seen : List Int) : List Int → Bool
  | [] => false
  | i :: rest => if i ∈ seen then true else has_duplicatesLoop (i :: seen) rest

/-- Embedding of `has_duplicates` (lists.py, lines 81-88). -/
def has_duplicates (t : List Int) : Bool :=
  has_duplicatesLoop [] t

/-- Embedding of the loop of `is_reverse` (lists.py, lines 92-103) over
`range(len1)` with `n = len1`: `False` is returned at the first position
with `w1[i] != w2[len1-1-i]`. All accesses are in range, so `getD` with an
arbitrary default is exact. -/
def is_reverseLoop (w1 w2 : List Char) (n : Nat) : List Nat → Bool
  | [] => true
  | i :: rest =>
    if w1.getD i ' ' ≠ w2.getD (n - 1 - i) ' ' then false
    else is_reverseLoop w1 w2 n rest

/-- Embedding of `is_reverse` (lists.py, lines 92-103). -/
def is_reverse (w1 w2 : List Char) : Bool :=
  if w1.length ≠ w2.length then false
  else is_reverseLoop w1 w2 w1.length (List.range w1.length)

/-- Checked variant of `cumsumStep`: every index access goes through
`getElem?`, and `none` models an `IndexError`. -/
def cumsumStepChecked (r : List Int) (i : Nat) : Option (List Int) :=
  if 0 < i then
    match r[i]?, r[i - 1]? with
    | some a, some b => some (r.set i (a + b))
    | _, _ => none
  else some r

/-- Checked variant of `cumsum`: `none` iff some index access of the loop
would raise an `IndexError`. -/
def cumsumChecked (t : List Int) : Option (List Int) :=
  (List.range t.length).foldlM cumsumStepChecked t

/-- Checked variant of the `is_sorted` loop. -/
def is_sortedLoopChecked (t : List Int) : List Nat → Option Bool
  | [] => some true
  | i :: rest =>
    match t[i - 1]?, t[i]? with
    | some a, some b =>
      if a > b then some false else is_sortedLoopChecked t rest
    | _, _ => none

/-- Checked variant of `is_sorted`: `none` iff some index access of the
loop would raise an `IndexError`. -/
def is_sortedChecked (t : List Int) : Option Bool :=
  is_sortedLoopChecked t ((List.range t.length).drop 1)

/-- Checked variant of the `is_reverse` loop. -/
def is_reverseLoopChecked (w1 w2 : List Char) (n : Nat) : List Nat → Option Bool
  | [] => some true
  | i :: rest =>
    match w1[i]?, w2[n - 1 - i]? with
    | some a, some b =>
      if a ≠ b then some false else is_reverseLoopChecked w1 w2 n rest
    | _, _ => none

/-- Checked variant of `is_reverse`: `none` iff some index access of the
loop would raise an `IndexError`. -/
def is_reverseChecked (w1 w2 : List Char) : Option Bool :=
  if w1.length ≠ w2.length then some false
  else is_reverseLoopChecked w1 w2 w1.length (List.range w1.length)

/-! ## Helper lemmas -/

theorem foldl_append_eq_flatten (ts : List (List Int)) :
    ∀ r : List Int, ts.foldl (fun r i => r ++ i) r = r ++ ts.flatten := by
  induction ts with
  | nil => intro r; simp
  | cons x xs ih => intro r; simp [ih]

theorem getD_set_self (r : List Int) (i : Nat) (v : Int) (h : i < r.length) :
    (r.set i v).getD i 0 = v := by
  rw [List.getD_eq_getElem?_getD, List.getElem?_set_self h]
  rfl

theorem getD_set_ne (r : List Int) (i j : Nat) (v : Int) (h : i ≠ j) :
    (r.set i v).getD j 0 = r.getD j 0 := by
  rw [List.getD_eq_getElem?_getD, List.getElem?_set_ne h, ← List.getD_eq_getElem?_getD]

theorem take_succ_sum (t : List Int) (n : Nat) (h : n < t.length) :
    (t.take (n + 1)).sum = (t.take n).sum + t.getD n 0 := by
  rw [List.take_succ, List.sum_append, List.getElem?_eq_getElem h]
  simp [List.getD_eq_getElem?_getD, List.getElem?_eq_getElem h]

/-- Invariant of the `cumsum` index loop after the first `n` iterations:
the list keeps its length, positions below `n` hold the inclusive prefix
sums, positions from `n` on are untouched. -/
theorem cumsum_invariant (t : List Int) :
    ∀ n, n ≤ t.length →
      ((List.range n).foldl cumsumStep t).length = t.length ∧
      (∀ j, j < n →
        ((List.range n).foldl cumsumStep t).getD j 0 = (t.take (j + 1)).sum) ∧
      (∀ j, n ≤ j →
        ((List.range n).foldl cumsumStep t).getD j 0 = t.getD j 0) := by
  intro n
  induction n with
  | zero => exact fun _ => ⟨rfl, fun j hj => absurd hj (by omega), fun _ _ => rfl⟩
  | succ n ih =>
    intro hn
    obtain ⟨hlen, hlt, hge⟩ := ih (by omega)
    rw [List.range_succ, List.foldl_append, List.foldl_cons, List.foldl_nil]
    rcases Nat.eq_zero_or_pos n with h0 | h0
    · subst h0
      refine ⟨by simp [cumsumStep], ?_, ?_⟩
      · intro j hj
        have hj0 : j = 0 := by omega
        subst hj0
        have h1 : (t.take 1).sum = t.getD 0 0 := by
          have h2 := take_succ_sum t 0 (by omega)
          simpa using h2
        simp only [cumsumStep, lt_self_iff_false, if_false, h1]
        exact hge 0 (Nat.le_refl 0)
      · intro j hj
        simp only [cumsumStep, lt_self_iff_false, if_false]
        exact hge j (by omega)
    · have hstep : cumsumStep ((List.range n).foldl cumsumStep t) n =
          ((List.range n).foldl cumsumStep t).set n
            (((List.range n).foldl cumsumStep t).getD n 0 +
              ((List.range n).foldl cumsumStep t).getD (n - 1) 0) := by
        simp [cumsumStep, h0]
      rw [hstep]
      have hvn : ((List.range n).foldl cumsumStep t).getD n 0 = t.getD n 0 :=
        hge n (by omega)
      have hvp : ((List.range n).foldl cumsumStep t).getD (n - 1) 0 =
          (t.take n).sum := by
        have := hlt (n - 1) (by omega)
        rwa [Nat.sub_add_cancel h0] at this
      refine ⟨by rw [List.length_set]; exact hlen, ?_, ?_⟩
      · intro j hj
        rcases Nat.lt_or_ge j n with hjn | hjn
        · rw [getD_set_ne _ n j _ (by omega)]
          exact hlt j hjn
        · have hjn' : j = n := by omega
          subst hjn'
          rw [getD_set_self _ _ _ (by omega), hvn, hvp,
            take_succ_sum t j (by omega)]
          ring
      · intro j hj
        rw [getD_set_ne _ n j _ (by omega)]
        exact hge j (by omega)

theorem cumsumCall_fold (l : List Nat) :
    ∀ s : List Int × List Int,
      l.foldl (fun s i => (s.1, cumsumStep s.2 i)) s =
        (s.1, l.foldl cumsumStep s.2) := by
  induction l with
  | nil => intro s; rfl
  | cons i rest ih => intro s; rw [List.foldl_cons, ih, List.foldl_cons]

theorem length_insertChar (c : Char) (l : List Char) :
    (insertChar c l).length = l.length + 1 := by
  induction l with
  | nil => rfl
  | cons x xs ih =>
    simp only [insertChar]
    split
    · simp
    · simp [ih]

theorem length_pySorted (s : List Char) : (pySorted s).length = s.length := by
  induction s with
  | nil => rfl
  | cons c rest ih =>
    show (insertChar c (pySorted rest)).length = rest.length + 1
    rw [length_insertChar, ih]

theorem dictGet_dictSet_self (d : List (Char × Nat)) (k : Char) (v v0 : Nat) :
    dictGet (dictSet d k v) k v0 = v := by
  induction d with
  | nil => simp [dictSet, dictGet]
  | cons p rest ih =>
    by_cases h : p.1 = k
    · simp [dictSet, dictGet, h]
    · simp [dictSet, dictGet, h, ih]

theorem dictGet_dictSet_ne (d : List (Char × Nat)) (k k' : Char) (v v0 : Nat)
    (h : k' ≠ k) :
    dictGet (dictSet d k v) k' v0 = dictGet d k' v0 := by
  induction d with
  | nil => simp [dictSet, dictGet, Ne.symm h]
  | cons p rest ih =>
    by_cases hp : p.1 = k
    · simp [dictSet, dictGet, hp, Ne.symm h]
    · by_cases hq : p.1 = k'
      · simp [dictSet, dictGet, hp, hq, h]
      · simp [dictSet, dictGet, hp, hq, h, ih]

theorem dictSet_count_sum (d : List (Char × Nat)) (k : Char) :
    ((dictSet d k (dictGet d k 0 + 1)).map Prod.snd).sum =
      (d.map Prod.snd).sum + 1 := by
  induction d with
  | nil => simp [dictSet, dictGet]
  | cons p rest ih =>
    by_cases hp : p.1 = k
    · simp [dictSet, dictGet, hp]
      omega
    · simp only [dictSet, dictGet, hp, if_false, List.map_cons, List.sum_cons, ih]
      omega

theorem dictSet_mem_pos (d : List (Char × Nat)) (k : Char) (v : Nat)
    (hv : 1 ≤ v) (hd : ∀ q ∈ d, 1 ≤ q.2) :
    ∀ q ∈ dictSet d k v, 1 ≤ q.2 := by
  induction d with
  | nil =>
    intro q hq
    simp [dictSet] at hq
    rw [hq]
    exact hv
  | cons p rest ih =>
    intro q hq
    by_cases hp : p.1 = k
    · simp only [dictSet, hp, if_true, List.mem_cons] at hq
      rcases hq with hq | hq
      · rw [hq]; exact hv
      · exact hd q (List.mem_cons_of_mem p hq)
    · simp only [dictSet, hp, if_false, List.mem_cons] at hq
      rcases hq with hq | hq
      · rw [hq]; exact hd p (List.mem_cons_self p rest)
      · exact ih (fun r hr => hd r (List.mem_cons_of_mem p hr)) q hq

theorem histogram_loop_count (s : List Char) :
    ∀ d (c : Char),
      dictGet (s.foldl (fun d c => dictSet d c (dictGet d c 0 + 1)) d) c 0 =
        dictGet d c 0 + s.count c := by
  induction s with
  | nil => intro d c; simp
  | cons x rest ih =>
    intro d c
    rw [List.foldl_cons, ih]
    by_cases hc : x = c
    · subst hc
      rw [dictGet_dictSet_self]
      simp [List.count_cons]
      omega
    · rw [dictGet_dictSet_ne d x c _ 0 (fun hh => hc hh.symm)]
      simp [List.count_cons, hc]

theorem histogram_loop_sum (s : List Char) :
    ∀ d : List (Char × Nat),
      (((s.foldl (fun d c => dictSet d c (dictGet d c 0 + 1)) d).map
          Prod.snd).sum) =
        (d.map Prod.snd).sum + s.length := by
  induction s with
  | nil => intro d; simp
  | cons x rest ih =>
    intro d
    rw [List.foldl_cons, ih, dictSet_count_sum]
    simp only [List.length_cons]
    omega

theorem histogram_loop_mem (s : List Char) :
    ∀ d, (∀ q ∈ d, 1 ≤ q.2) →
      ∀ q ∈ s.foldl (fun d c => dictSet d c (dictGet d c 0 + 1)) d, 1 ≤ q.2 := by
  induction s with
  | nil => intro d hd; simpa using hd
  | cons x rest ih =>
    intro d hd
    rw [List.foldl_cons]
    exact ih _ (dictSet_mem_pos d x _ (by omega) hd)

theorem getD_of_lt {α : Type} (l : List α) (i : Nat) (d : α) (h : i < l.length) :
    l.getD i d = l[i] := by
  rw [List.getD_eq_getElem?_getD, List.getElem?_eq_getElem h]
  rfl

theorem has_matchLoop_eq_any (l : List (Int × Int)) :
    has_matchLoop l = l.any (fun p => decide (p.1 = p.2)) := by
  induction l with
  | nil => rfl
  | cons p rest ih =>
    simp only [has_matchLoop, List.any_cons]
    by_cases h : p.1 = p.2
    · simp [h]
    · simp [h, ih]

theorem cumsumStep_length (r : List Int) (i : Nat) :
    (cumsumStep r i).length = r.length := by
  rw [cumsumStep]
  split <;> simp

theorem cumsumStepChecked_eq (r : List Int) (i : Nat) (h : i < r.length) :
    cumsumStepChecked r i = some (cumsumStep r i) := by
  rcases Nat.eq_zero_or_pos i with h0 | h0
  · subst h0
    rfl
  · have h1 : i - 1 < r.length := by omega
    rw [cumsumStepChecked, cumsumStep, if_pos h0, if_pos h0,
      List.getElem?_eq_getElem h, List.getElem?_eq_getElem h1,
      getD_of_lt r i 0 h, getD_of_lt r (i - 1) 0 h1]

theorem cumsum_foldlM_eq (l : List Nat) :
    ∀ r : List Int, (∀ i ∈ l, i < r.length) →
      List.foldlM cumsumStepChecked r l = some (List.foldl cumsumStep r l) := by
  induction l with
  | nil => intro r _; rfl
  | cons i rest ih =>
    intro r hr
    rw [List.foldlM_cons,
      cumsumStepChecked_eq r i (hr i (List.mem_cons_self i rest))]
    show (some (cumsumStep r i)).bind _ = _
    rw [Option.some_bind, List.foldl_cons]
    exact ih (cumsumStep r i) (fun j hj => by
      rw [cumsumStep_length]
      exact hr j (List.mem_cons_of_mem i hj))

theorem is_sortedLoopChecked_eq (t : List Int) :
    ∀ l : List Nat, (∀ i ∈ l, i < t.length) →
      is_sortedLoopChecked t l = some (is_sortedLoop t l) := by
  intro l
  induction l with
  | nil => intro _; rfl
  | cons i rest ih =>
    intro hl
    have hi : i < t.length := hl i (List.mem_cons_self i rest)
    have hi1 : i - 1 < t.length := by omega
    by_cases hgt : t.getD (i - 1) 0 > t.getD i 0
    · simp only [is_sortedLoopChecked, is_sortedLoop,
        List.getElem?_eq_getElem hi, List.getElem?_eq_getElem hi1,
        getD_of_lt t i 0 hi, getD_of_lt t (i - 1) 0 hi1] at hgt ⊢
      rw [if_pos hgt, if_pos hgt]
    · simp only [is_sortedLoopChecked, is_sortedLoop,
        List.getElem?_eq_getElem hi, List.getElem?_eq_getElem hi1,
        getD_of_lt t i 0 hi, getD_of_lt t (i - 1) 0 hi1] at hgt ⊢
      rw [if_neg hgt, if_neg hgt]
      exact ih (fun j hj => hl j (List.mem_cons_of_mem i hj))

theorem is_reverseLoopChecked_eq (w1 w2 : List Char) (n : Nat) :
    ∀ l : List Nat,
      (∀ i ∈ l, i < w1.length ∧ n - 1 - i < w2.length) →
      is_reverseLoopChecked w1 w2 n l = some (is_reverseLoop w1 w2 n l) := by
  intro l
  induction l with
  | nil => intro _; rfl
  | cons i rest ih =>
    intro hl
    obtain ⟨hi, hi2⟩ := hl i (List.mem_cons_self i rest)
    by_cases hne : w1.getD i ' ' ≠ w2.getD (n - 1 - i) ' '
    · simp only [is_reverseLoopChecked, is_reverseLoop,
        List.getElem?_eq_getElem hi, List.getElem?_eq_getElem hi2,
        getD_of_lt w1 i ' ' hi, getD_of_lt w2 (n - 1 - i) ' ' hi2] at hne ⊢
      rw [if_pos hne, if_pos hne]
    · simp only [is_reverseLoopChecked, is_reverseLoop,
        List.getElem?_eq_getElem hi, List.getElem?_eq_getElem hi2,
        getD_of_lt w1 i ' ' hi, getD_of_lt w2 (n - 1 - i) ' ' hi2] at hne ⊢
      rw [if_neg hne, if_neg hne]
      exact ih (fun j hj => hl j (List.mem_cons_of_mem i hj))

/-! ## Claim theorems -/

/-- C1: `nested_sum` outputs the concatenation of the inner sequences in
outer-then-inner order; its length is the sum of the inner lengths, and
an empty outer sequence or all-empty inner sequences give an empty
result. -/
theorem nested_sum_spec (t : List (List Int)) :
    nested_sum t = t.flatten ∧
    (nested_sum t).length = (t.map List.length).sum ∧
    ((∀ l ∈ t, l = []) → nested_sum t = []) := by
  have h : nested_sum t = t.flatten := by
    simpa [nested_sum] using foldl_append_eq_flatten t []
  refine ⟨h, ?_, ?_⟩
  · rw [h]; exact List.length_flatten t
  · intro hall
    rw [h]
    exact List.flatten_eq_nil_iff.mpr hall

/-- C2: for a non-empty list, `cumsum` outputs a list of the same length
whose entry at position `i` is the inclusive prefix sum of the input up
to `i`; in particular its last entry is the sum of the input. -/
theorem cumsum_spec (t : List Int) (h : t ≠ []) :
    (cumsum t).length = t.length ∧
    (∀ i, i < t.length → (cumsum t).getD i 0 = (t.take (i + 1)).sum) ∧
    (cumsum t).getLast? = some t.sum := by
  obtain ⟨hlen, hlt, _⟩ := cumsum_invariant t t.length (Nat.le_refl _)
  have hc : cumsum t = (List.range t.length).foldl cumsumStep t := rfl
  rw [← hc] at hlen hlt
  have hpos : 0 < t.length := List.length_pos.mpr h
  refine ⟨hlen, fun i hi => hlt i hi, ?_⟩
  have hidx : t.length - 1 < (cumsum t).length := by omega
  have hD : (cumsum t).getD (t.length - 1) 0 = t.sum := by
    have h2 := hlt (t.length - 1) (by omega)
    rwa [Nat.sub_add_cancel hpos, List.take_length] at h2
  rw [List.getD_eq_getElem?_getD, List.getElem?_eq_getElem hidx] at hD
  simp only [Option.getD_some] at hD
  rw [List.getLast?_eq_getElem?, hlen, List.getElem?_eq_getElem hidx]
  exact congrArg some hD

/-- Witness for C2 at the input `[1,2,3]` from the source comments. -/
theorem cumsum_spec_witness :
    (cumsum [1, 2, 3]).getLast? = some (List.sum [1, 2, 3]) :=
  (cumsum_spec [1, 2, 3] (by decide)).2.2

/-- C3: a call to `cumsum` leaves the caller's list unchanged: the
running totals are accumulated in the private copy `r = t[:]`, whose
final value is the printed output. -/
theorem cumsum_no_mutation (t : List Int) :
    (cumsumCall t).1 = t ∧ (cumsumCall t).2 = cumsum t := by
  constructor <;> simp [cumsumCall, cumsumCall_fold, cumsum]

/-- C4: `middle` returns the elements of the input except the first and
the last: its length is `max 0 (len - 2)` (truncated subtraction), inputs
of length at most 2 give the empty list, and element `i` of the result is
element `i+1` of the input whenever `i + 2 < len`. -/
theorem middle_spec (t : List Int) :
    (middle t).length = t.length - 2 ∧
    (t.length ≤ 2 → middle t = []) ∧
    (∀ i : Nat, (middle t)[i]? = if i + 2 < t.length then t[i + 1]? else none) := by
  have hlen : (middle t).length = t.length - 2 := by
    simp only [middle, List.length_dropLast, List.length_drop]
    omega
  refine ⟨hlen, ?_, ?_⟩
  · intro h
    exact List.eq_nil_of_length_eq_zero (by omega)
  · intro i
    rw [middle, List.dropLast_eq_take, List.getElem?_take, List.length_drop,
      List.getElem?_drop]
    by_cases h : i + 2 < t.length
    · rw [if_pos (by omega), if_pos h]
      congr 1
      omega
    · rw [if_neg (by omega), if_neg h]

/-- C5: on a list of length at least 2, `chop` removes exactly the first
and the last element in place: the call raises no error, returns no
value, and the caller's list afterwards equals its former middle
portion. -/
theorem chop_spec (t : List Int) (h : 2 ≤ t.length) :
    chop t = (true, middle t) := by
  cases t with
  | nil => simp at h
  | cons x xs =>
    cases xs with
    | nil => simp at h
    | cons y rest =>
      rcases h2 : (y :: rest).getLast? with _ | z
      · rw [List.getLast?_eq_none_iff] at h2
        exact absurd h2 (by simp)
      · simp [chop, pop0, popNeg1, h2, middle]

/-- Witness for C5 at the input `[1,2,3,4]` from the spec. -/
theorem chop_spec_witness : chop [1, 2, 3, 4] = (true, [2, 3]) :=
  (chop_spec [1, 2, 3, 4] (by decide)).trans (by decide)

/-- C6: `is_anagram` is true exactly when the two inputs, after removing
spaces and lower-casing, have identical sorted character sequences;
inputs of different post-normalisation length are never anagrams, and the
examples `abc`/`bac` and `abc`/`abd` behave as the spec states. -/
theorem is_anagram_spec :
    (∀ a b : List Char,
      (is_anagram a b = true ↔
        pySorted (lowerStr (removeSpaces a)) =
          pySorted (lowerStr (removeSpaces b))) ∧
      ((lowerStr (removeSpaces a)).length ≠ (lowerStr (removeSpaces b)).length →
        is_anagram a b = false)) ∧
    is_anagram "abc".toList "bac".toList = true ∧
    is_anagram "abc".toList "abd".toList = false := by
  refine ⟨fun a b => ⟨?_, ?_⟩, by decide, by decide⟩
  · simp [is_anagram]
  · intro hne
    simp only [is_anagram, decide_eq_false_iff_not]
    intro heq
    apply hne
    have hl := congrArg List.length heq
    rwa [length_pySorted, length_pySorted] at hl

/-- C7: `histogram` maps each distinct element of the input to its
number of occurrences (looking up any character yields its count), every
stored count is at least 1, the counts sum to the input's length, the
empty input gives the empty mapping, and `histogram('aaabbcg')` is
`{'a': 3, 'b': 2, 'c': 1, 'g': 1}` in insertion order. -/
theorem histogram_spec :
    (∀ s : List Char,
      (∀ c : Char, dictGet (histogram s) c 0 = s.count c) ∧
      (∀ q ∈ histogram s, 1 ≤ q.2) ∧
      ((histogram s).map Prod.snd).sum = s.length) ∧
    histogram [] = [] ∧
    histogram "aaabbcg".toList = [('a', 3), ('b', 2), ('c', 1), ('g', 1)] := by
  refine ⟨fun s => ⟨?_, ?_, ?_⟩, rfl, by decide⟩
  · intro c
    have h := histogram_loop_count s [] c
    simpa [histogram, dictGet] using h
  · exact histogram_loop_mem s [] (by simp)
  · have h := histogram_loop_sum s []
    simpa [histogram] using h

/-- C8: `has_match` pairs elements positionally up to the length of the
shorter sequence (trailing elements of the longer one are ignored) and is
true exactly when some position below both lengths holds equal elements;
it is false whenever either sequence is empty. -/
theorem has_match_spec :
    (∀ a b : List Int,
      has_match a b = true ↔
        ∃ i, i < a.length ∧ i < b.length ∧ a.getD i 0 = b.getD i 0) ∧
    (∀ b : List Int, has_match [] b = false) ∧
    (∀ a : List Int, has_match a [] = false) := by
  refine ⟨fun a b => ?_, fun b => rfl,
    fun a => by simp [has_match, has_matchLoop]⟩
  rw [has_match, has_matchLoop_eq_any, List.any_eq_true]
  constructor
  · rintro ⟨p, hp, heq⟩
    rw [List.mem_iff_getElem] at hp
    obtain ⟨i, hi, hgi⟩ := hp
    rw [List.length_zip, lt_min_iff] at hi
    refine ⟨i, hi.1, hi.2, ?_⟩
    rw [getD_of_lt a i 0 hi.1, getD_of_lt b i 0 hi.2]
    have hz : (a.zip b)[i] = (a[i], b[i]) := List.getElem_zip
    rw [hz] at hgi
    have hpe : p.1 = p.2 := of_decide_eq_true heq
    rw [← hgi] at hpe
    exact hpe
  · rintro ⟨i, hia, hib, heq⟩
    have hi : i < (a.zip b).length := by
      rw [List.length_zip, lt_min_iff]
      exact ⟨hia, hib⟩
    refine ⟨(a.zip b)[i], List.getElem_mem hi, ?_⟩
    have hz : (a.zip b)[i] = (a[i], b[i]) := List.getElem_zip
    rw [hz]
    apply decide_eq_true
    rw [getD_of_lt a i 0 hia, getD_of_lt b i 0 hib] at heq
    exact heq

/-- C9: none of the functions raises on a well-typed input: the checked
embeddings of the three index-accessing functions (`cumsum`, `is_sorted`,
`is_reverse`), in which every index access may fail, succeed on every
input and agree with the plain embeddings, and every function is defined
on the empty sequence. -/
theorem no_error_spec :
    (∀ t : List Int, cumsumChecked t = some (cumsum t)) ∧
    (∀ t : List Int, is_sortedChecked t = some (is_sorted t)) ∧
    (∀ w1 w2 : List Char, is_reverseChecked w1 w2 = some (is_reverse w1 w2)) ∧
    histogram [] = [] ∧
    nested_sum [] = [] ∧
    cumsum [] = [] ∧
    middle [] = [] ∧
    is_sorted [] = true ∧
    has_duplicates [] = false ∧
    is_reverse [] [] = true ∧
    (∀ b : List Int, has_match [] b = false) := by
  refine ⟨?_, ?_, ?_, rfl, rfl, rfl, rfl, rfl, rfl, rfl, fun b => rfl⟩
  · intro t
    exact cumsum_foldlM_eq (List.range t.length) t
      (fun i hi => List.mem_range.mp hi)
  · intro t
    exact is_sortedLoopChecked_eq t ((List.range t.length).drop 1)
      (fun i hi => List.mem_range.mp (List.mem_of_mem_drop hi))
  · intro w1 w2
    rw [is_reverseChecked, is_reverse]
    by_cases hl : w1.length ≠ w2.length
    · rw [if_pos hl, if_pos hl]
    · rw [if_neg hl, if_neg hl]
      apply is_reverseLoopChecked_eq
      intro i hi
      have hi1 : i < w1.length := List.mem_range.mp hi
      have hl2 : w1.length = w2.length := by
        by_contra hc
        exact hl hc
      exact ⟨hi1, by omega⟩

/-- C10: `chop` on a one-element list is not atomic: `pop(0)` succeeds,
emptying the list, and only then does `pop(-1)` raise an `IndexError`, so
the caller's list is left emptied. -/
theorem chop_singleton (x : Int) :
    pop0 [x] = some (x, []) ∧ chop [x] = (false, []) :=
  ⟨rfl, rfl⟩

end Learning
